import Mathlib

/-!
Verification development for an APK-customization service.

The service receives a job request, copies a pre-decoded application
template into a per-job working tree, rewrites the embedded package
identity and display name, injects a payload configuration and optional
permission declarations, applies cosmetic smali obfuscation, builds,
signs (with a fallback signing identity policy) and publishes the result
through an ordered chain of delivery strategies, reporting progress
through webhook notifications.

This file embeds the relevant computations (string rewriting over the
working tree, the mutator step sequence, the package-name construction,
the payload-configuration object, the permission injector, the
display-name replacer, and the control flow of the background job with
its emitted notification trace) as executable Lean definitions, and
proves or refutes the specification claims about them.
-/

/-! ## Global literal replacement (JavaScript `String.replace` with a
literal pattern and the `g` flag): scan left to right, replace each
non-overlapping occurrence, continue after the replacement. -/

def replaceAllF (pat rep : List Char) : Nat → List Char → List Char
  | _, [] => []
  | 0, s => s
  | n + 1, c :: rest =>
      if pat ≠ [] ∧ pat.isPrefixOf (c :: rest) then
        rep ++ replaceAllF pat rep n ((c :: rest).drop pat.length)
      else
        c :: replaceAllF pat rep n rest

/-- One character of progress is consumed per step, so the input length
is always enough fuel. -/
def replaceAll (pat rep s : List Char) : List Char :=
  replaceAllF pat rep s.length s

/-! ## Package identity construction (server.js lines 126-144)

`cleanAppName` lower-cases the display name (or the literal `app` when
the name is absent or empty), strips every character outside `a`-`z`,
and substitutes `gallery` when fewer than three letters survive.  The
random suffix picks four letters from the lowercase alphabet.  The new
identity is `com.<cleanAppName>.<suffix>`; its path-segment form is
obtained by replacing each dot with a slash. -/

def rawClean (appName : Option String) : List Char :=
  ((match appName with
    | some a => if a = "" then "app" else a
    | none => "app").toList.map Char.toLower).filter
    (fun c => 'a' ≤ c && c ≤ 'z')

def cleanFinal (appName : Option String) : List Char :=
  if (rawClean appName).length < 3 then "gallery".toList else rawClean appName

def lettersTab : List Char := "abcdefghijklmnopqrstuvwxyz".toList

abbrev RandTuple : Type := Fin 26 × Fin 26 × Fin 26 × Fin 26

def randomSuffix (r : RandTuple) : List Char :=
  [lettersTab.getD r.1.val 'a', lettersTab.getD r.2.1.val 'a',
   lettersTab.getD r.2.2.1.val 'a', lettersTab.getD r.2.2.2.val 'a']

def newPackageName (appName : Option String) (r : RandTuple) : List Char :=
  "com.".toList ++ cleanFinal appName ++ ".".toList ++ randomSuffix r

/-- Models `s.replace(/\./g, '/')`: every dot becomes a slash. -/
def slashified (l : List Char) : List Char :=
  l.map (fun c => if c = '.' then '/' else c)

def oldPackageName : List Char := "com.h4k3r.galleryeye".toList

def oldPackagePath : List Char := slashified oldPackageName

/-! ## Working tree model

A working tree is a list of files; each file has a path (segments
relative to the work directory) and a character-list content. -/

structure FileEntry where
  path : List String
  content : List Char
deriving DecidableEq

abbrev WorkTree : Type := List FileEntry

/-- Files processed by `updateSmaliFiles` / `obfuscateSmaliFiles`: they
live under one of the roots `smali`, `smali_classes2`, `smali_classes3`
and their file name ends in `.smali`. -/
def isSmaliFilePath (p : List String) : Bool :=
  match p with
  | [] => false
  | root :: rest =>
    (root == "smali" || root == "smali_classes2" || root == "smali_classes3")
      && !rest.isEmpty && ".smali".toList.isSuffixOf (p.getLastD "").toList

/-- The identity-rename step (server.js lines 146-184) applied to one
file: `AndroidManifest.xml` and `apktool.yml` get a global replacement
of the dotted token; `.smali` files under the three smali roots get a
global replacement of the path-segment form followed by a global
replacement of the dotted form; every other file is untouched. -/
def renameFile (newPkg : List Char) (e : FileEntry) : FileEntry :=
  if e.path = ["AndroidManifest.xml"] then
    ⟨e.path, replaceAll oldPackageName newPkg e.content⟩
  else if e.path = ["apktool.yml"] then
    ⟨e.path, replaceAll oldPackageName newPkg e.content⟩
  else if isSmaliFilePath e.path then
    ⟨e.path, replaceAll oldPackageName newPkg
      (replaceAll oldPackagePath (slashified newPkg) e.content)⟩
  else e

def renameStep (newPkg : List Char) (t : WorkTree) : WorkTree :=
  t.map (renameFile newPkg)

/-! ### Character facts about the generated identity -/

def LettersOnly (l : List Char) : Prop := ∀ c ∈ l, 'a' ≤ c ∧ c ≤ 'z'

/-! ### No-residual guarantees for the identity rename

A replaced occurrence can only be recreated when the source contains an
occurrence of one form of the old token immediately followed by a proper
nonempty tail of one of the forms; `Isolated` rules these out. -/

abbrev Isolated (c : List Char) : Prop :=
  ∀ k, k < 20 → 1 ≤ k →
    ¬ (oldPackageName ++ oldPackageName.drop k) <:+: c ∧
    ¬ (oldPackageName ++ oldPackagePath.drop k) <:+: c ∧
    ¬ (oldPackagePath ++ oldPackageName.drop k) <:+: c ∧
    ¬ (oldPackagePath ++ oldPackagePath.drop k) <:+: c

/-! ### Concrete inputs for claim C1 -/

def cexRand : RandTuple := (0, 1, 2, 3)

def cexTree : WorkTree :=
  [⟨["res", "values", "leftover.xml"], oldPackageName⟩]

def witnessEntry : FileEntry :=
  ⟨["smali", "com", "h4k3r", "galleryeye", "MainActivity.smali"],
    "L".toList ++ oldPackagePath ++ "/MainActivity;".toList⟩

/-! ## Display-name replacement (server.js lines 117-124)

`content.replace(/<string name="app_name">.*?<\/string>/, tmpl)` with
`tmpl` = the tag rebuilt around the supplied name: a non-global,
first-match replacement.  `.` does not match line terminators, `.*?` is
lazy, and the replacement template undergoes JavaScript `$`-substitution
(`$$`, `$&`, dollar-backquote, dollar-quote). -/

def openTag : List Char := "<string name=\"app_name\">".toList

def closeTag : List Char := "</string>".toList

def isNewlineChar (c : Char) : Bool :=
  c = '\n' || c = '\r' || c = Char.ofNat 0x2028 || c = Char.ofNat 0x2029

/-- Scan for the earliest close tag reachable without crossing a line
terminator; returns the skipped middle and the text after the tag. -/
def findClose : List Char → Option (List Char × List Char)
  | [] => none
  | c :: r =>
    if closeTag.isPrefixOf (c :: r) then some ([], (c :: r).drop closeTag.length)
    else if isNewlineChar c then none
    else (findClose r).map (fun p => (c :: p.1, p.2))

/-- Leftmost match of the display-name pattern: at each position try the
open tag and then the lazy middle; on failure advance one character.
Returns (text before the match, middle of the tag, text after). -/
def findMatch : List Char → Option (List Char × List Char × List Char)
  | [] => none
  | c :: r =>
    if openTag.isPrefixOf (c :: r) then
      match findClose ((c :: r).drop openTag.length) with
      | some (mid, rest) => some ([], mid, rest)
      | none => (findMatch r).map (fun p => (c :: p.1, p.2.1, p.2.2))
    else (findMatch r).map (fun p => (c :: p.1, p.2.1, p.2.2))

/-- JavaScript `GetSubstitution` for a template with no capture groups:
`$$` is a literal dollar, `$&` the matched text, dollar-backquote the
text before the match, dollar-quote the text after; a dollar followed by
any other character stands for itself. -/
def expandRepl (matched before after : List Char) : List Char → List Char
  | [] => []
  | c :: rest =>
    if c = '$' then
      match rest with
      | [] => [c]
      | d :: rest2 =>
        if d = '$' then '$' :: expandRepl matched before after rest2
        else if d = '&' then matched ++ expandRepl matched before after rest2
        else if d = Char.ofNat 96 then before ++ expandRepl matched before after rest2
        else if d = Char.ofNat 39 then after ++ expandRepl matched before after rest2
        else c :: d :: expandRepl matched before after rest2
    else c :: expandRepl matched before after rest

def replaceAppName (content newVal : List Char) : List Char :=
  match findMatch content with
  | none => content
  | some (pre, mid, rest) =>
    pre ++ expandRepl (openTag ++ mid ++ closeTag) pre rest
      (openTag ++ newVal ++ closeTag) ++ rest

def witnessStrings : List Char :=
  ("<resources>\n" ++
   "    <string name=\"app_name\">Gallery Eye</string>\n" ++
   "    <string name=\"title\">Photos</string>\n" ++
   "</resources>\n").toList

/-- The display-name step over the working tree (server.js lines
117-124): runs only when a non-empty name was supplied and only touches
`res/values/strings.xml` when it exists. -/
def displayNameStep (appName : Option String) (t : WorkTree) : WorkTree :=
  match appName with
  | none => t
  | some a =>
    if a = "" then t
    else t.map fun e =>
      if e.path = ["res", "values", "strings.xml"] then
        ⟨e.path, replaceAppName e.content a.toList⟩
      else e

/-! ## Permission injection (server.js lines 200-227)

The anchor is located by plain substring search (`indexOf`); the
requested permission lines are inserted immediately before it.  A
missing anchor silently skips the whole step. -/

def permissionAnchor : List Char :=
  "<uses-permission android:name=\"android.permission.FOREGROUND_SERVICE\"".toList

def smsPermissionLine : List Char :=
  "    <uses-permission android:name=\"android.permission.READ_SMS\" />\n".toList

def contactsPermissionLine : List Char :=
  "    <uses-permission android:name=\"android.permission.READ_CONTACTS\" />\n".toList

def firstIndexOf (pat : List Char) : List Char → Option Nat
  | [] => if pat.isPrefixOf ([] : List Char) then some 0 else none
  | c :: r =>
    if pat.isPrefixOf (c :: r) then some 0
    else (firstIndexOf pat r).map (· + 1)

def permsToAdd (sms contacts : Option String) : List Char :=
  (if sms = some "true" then smsPermissionLine else []) ++
    (if contacts = some "true" then contactsPermissionLine else [])

def injectPermissionsContent (sms contacts : Option String)
    (manifest : List Char) : List Char :=
  match firstIndexOf permissionAnchor manifest with
  | none => manifest
  | some i =>
    let adds := permsToAdd sms contacts
    if adds = [] then manifest
    else manifest.take i ++ adds ++ manifest.drop i

def permissionStep (sms contacts : Option String) (t : WorkTree) : WorkTree :=
  t.map fun e =>
    if e.path = ["AndroidManifest.xml"] then
      ⟨e.path, injectPermissionsContent sms contacts e.content⟩
    else e

def witnessManifest : List Char :=
  ("<manifest>\n" ++
   "    <uses-permission android:name=\"android.permission.INTERNET\" />\n" ++
   "    <uses-permission android:name=\"android.permission.FOREGROUND_SERVICE\" />\n" ++
   "    <application/>\n</manifest>\n").toList

/-! ## Job requests and the payload configuration (server.js lines 71,
186-198)

Request fields arrive as optional strings from the multipart body; a
missing field is `none`.  Each boolean flag of the embedded
configuration is the strict comparison `field === 'true'`; the auxiliary
link and the display name fall back through JavaScript truthiness
(`webLink || ""`, `appName || "Gallery Eye"`). -/

structure JobRequest where
  uuid : String
  appName : Option String
  hideApp : Option String
  webLink : Option String
  callbackUrl : Option String
  enableSmsPermission : Option String
  enableContactsPermission : Option String
  hasIcon : Bool

structure PayloadConfig where
  hideApp : Bool
  webLink : String
  appName : String
  enableSmsPermission : Bool
  enableContactsPermission : Bool
deriving DecidableEq

def buildConfig (req : JobRequest) : PayloadConfig :=
  { hideApp := req.hideApp = some "true"
    webLink :=
      match req.webLink with
      | some w => if w = "" then "" else w
      | none => ""
    appName :=
      match req.appName with
      | some a => if a = "" then "Gallery Eye" else a
      | none => "Gallery Eye"
    enableSmsPermission := req.enableSmsPermission = some "true"
    enableContactsPermission := req.enableContactsPermission = some "true" }

def hexDigit (n : Nat) : Char :=
  if n < 10 then Char.ofNat (48 + n) else Char.ofNat (87 + n)

/-- The `JSON.stringify` escaping for one character. -/
def jsonEscapeChar (c : Char) : List Char :=
  if c = '"' then ['\\', '"']
  else if c = '\\' then ['\\', '\\']
  else if c = Char.ofNat 8 then ['\\', 'b']
  else if c = Char.ofNat 9 then ['\\', 't']
  else if c = Char.ofNat 10 then ['\\', 'n']
  else if c = Char.ofNat 12 then ['\\', 'f']
  else if c = Char.ofNat 13 then ['\\', 'r']
  else if c.toNat < 32 then
    ['\\', 'u', '0', '0', hexDigit (c.toNat / 16), hexDigit (c.toNat % 16)]
  else [c]

def jsonStr (s : String) : List Char :=
  '"' :: (s.toList.map jsonEscapeChar).flatten ++ ['"']

def boolLit (b : Bool) : List Char :=
  if b then "true".toList else "false".toList

/-- Models `JSON.stringify(config)` with the object-literal key order. -/
def serializeConfig (cfg : PayloadConfig) : List Char :=
  "\x7b\"hideApp\":".toList ++ boolLit cfg.hideApp ++
    ",\"webLink\":".toList ++ jsonStr cfg.webLink ++
    ",\"appName\":".toList ++ jsonStr cfg.appName ++
    ",\"enableSmsPermission\":".toList ++ boolLit cfg.enableSmsPermission ++
    ",\"enableContactsPermission\":".toList ++
    boolLit cfg.enableContactsPermission ++ "\x7d".toList

/-- Models `fs.writeFileSync`: overwrite the file when present, create it
otherwise. -/
def writeFile (p : List String) (c : List Char) (t : WorkTree) : WorkTree :=
  if t.any (fun e => e.path = p) then
    t.map fun e => if e.path = p then ⟨p, c⟩ else e
  else t ++ [⟨p, c⟩]

/-- Payload injection (server.js lines 186-198): write the job
identifier and the serialized configuration into the asset area. -/
def injectConfigStep (req : JobRequest) (t : WorkTree) : WorkTree :=
  writeFile ["assets", "config.json"] (serializeConfig (buildConfig req))
    (writeFile ["assets", "uuid.txt"] req.uuid.toList t)

def witnessReq : JobRequest :=
  { uuid := "abc123", appName := none, hideApp := some "True",
    webLink := none, callbackUrl := none,
    enableSmsPermission := some "true", enableContactsPermission := some "1",
    hasIcon := false }

/-! ## Cosmetic smali obfuscation (server.js lines 229-273)

A fixed rename table applied in insertion order, followed by the removal
of three logging invocation patterns
(`invoke-static {...}, Landroid/util/Log;->d(...)I` and likewise for
`e` and `i`), each replaced by the text `# log removed`. -/

def suspiciousRenames : List (List Char × List Char) :=
  [("SocketManager".toList, "CloudService".toList),
   ("SmsContactManager".toList, "DataHelper".toList),
   ("DataSyncHelper".toList, "SyncUtil".toList),
   ("KeepAliveService".toList, "AppService".toList),
   ("GalleryEye".toList, "MediaApp".toList),
   ("galleryeye".toList, "mediaapp".toList)]

def logHead : List Char := "invoke-static \x7b".toList

def logMid (mc : Char) : List Char :=
  "\x7d, Landroid/util/Log;->".toList ++ [mc] ++ "(".toList

def logTail : List Char := ")I".toList

def logRepl : List Char := "# log removed".toList

/-- Match the logging pattern at the head of `s`; the character classes
`[^}]*` and `[^)]*` take everything up to the next closing brace or
parenthesis.  Returns the text after the match. -/
def matchLogAt (mc : Char) (s : List Char) : Option (List Char) :=
  if logHead.isPrefixOf s then
    let s1 := (s.drop logHead.length).dropWhile (fun c => c ≠ Char.ofNat 125)
    if (logMid mc).isPrefixOf s1 then
      let s2 := (s1.drop (logMid mc).length).dropWhile (fun c => c ≠ ')')
      if logTail.isPrefixOf s2 then some (s2.drop logTail.length) else none
    else none
  else none

def stripLogF (mc : Char) : Nat → List Char → List Char
  | _, [] => []
  | 0, s => s
  | n + 1, c :: rest =>
    match matchLogAt mc (c :: rest) with
    | some r => logRepl ++ stripLogF mc n r
    | none => c :: stripLogF mc n rest

/-- Every match consumes at least the head literal, so the input length
is enough fuel. -/
def stripLog (mc : Char) (s : List Char) : List Char :=
  stripLogF mc s.length s

def obfuscateContent (c : List Char) : List Char :=
  let c1 := suspiciousRenames.foldl (fun acc p => replaceAll p.1 p.2 acc) c
  stripLog 'i' (stripLog 'e' (stripLog 'd' c1))

def obfuscationStep (t : WorkTree) : WorkTree :=
  t.map fun e =>
    if isSmaliFilePath e.path then ⟨e.path, obfuscateContent e.content⟩ else e

/-! ## The Mutator step sequence (server.js lines 115-273)

The background task applies, in source order: the display-name
customization (step 2), the package-identity randomization (step 2.5),
the payload-configuration injection (step 3), the permission injection
(step 3.5) and the cosmetic smali obfuscation (step 3.6). -/

inductive MutStep where
  | identityRename
  | displayNameSet
  | payloadInjection
  | permissionInjection
  | cosmeticObfuscation
deriving DecidableEq

def mutatorSteps (req : JobRequest) (r : RandTuple) :
    List (MutStep × (WorkTree → WorkTree)) :=
  [(MutStep.displayNameSet, displayNameStep req.appName),
   (MutStep.identityRename, renameStep (newPackageName req.appName r)),
   (MutStep.payloadInjection, injectConfigStep req),
   (MutStep.permissionInjection,
     permissionStep req.enableSmsPermission req.enableContactsPermission),
   (MutStep.cosmeticObfuscation, obfuscationStep)]

def runMutator (req : JobRequest) (r : RandTuple) (t : WorkTree) : WorkTree :=
  (mutatorSteps req r).foldl (fun acc s => s.2 acc) t

def mutatorTrace (req : JobRequest) (r : RandTuple) : List MutStep :=
  (mutatorSteps req r).map Prod.fst

/-- The order asserted by the specification: identity rename first,
then display-name set, payload injection, permission injection,
cosmetic obfuscation. -/
def claimedMutatorOrder : List MutStep :=
  [MutStep.identityRename, MutStep.displayNameSet, MutStep.payloadInjection,
   MutStep.permissionInjection, MutStep.cosmeticObfuscation]

/-! ## The background job: control flow and notification trace
(server.js lines 80-469)

External effects are abstracted by their outcomes: `none` in an
`Option String` error slot means the awaited command succeeded, `some
msg` that it rejected with that message.  The keytool invocation has no
error slot because its failure is swallowed (lines 346-362).  Delivery
outcomes are `some url` when the strategy set a download URL and `none`
when it was skipped, threw, or returned no attachment. -/

inductive JobEvent where
  | progress (step : String) (pct : Nat)
  | ready (url filename : String)
  | error (msg : String)
deriving DecidableEq

structure ExtEnv where
  baseValid : Bool
  copyDecodeErr : Option String
  buildErr : Option String
  keytoolOk : Bool
  keystoreExists : Bool
  signExecErr : Option String
  tempFiles : List String
  discordConfigured : Bool
  discordOutcome : Option String
  cloudinaryConfigured : Bool
  cloudinaryOutcome : Option String
  host : String

def isAlphaNumChar (c : Char) : Bool :=
  ('a' ≤ c && c ≤ 'z') || ('A' ≤ c && c ≤ 'Z') || ('0' ≤ c && c ≤ '9')

/-- Models `(appName || "GalleryEye").replace(/[^a-zA-Z0-9]/g, '-') + ".apk"`. -/
def finalApkName (req : JobRequest) : String :=
  let base :=
    match req.appName with
    | some a => if a = "" then "GalleryEye" else a
    | none => "GalleryEye"
  String.mk (base.toList.map fun c => if isAlphaNumChar c then c else '-') ++ ".apk"

inductive SignMode where
  | dynamic
  | fallback
deriving DecidableEq

/-- The flag `useDynamicKey` is set only when keytool succeeded (lines 346-362). -/
def useDynamicKey (env : ExtEnv) : Bool := env.keytoolOk

/-- The signer invocation (lines 368-376): the ephemeral keystore is
used only when it was generated and still exists; otherwise default
debug signing. -/
def signMode (env : ExtEnv) : SignMode :=
  if useDynamicKey env && env.keystoreExists then SignMode.dynamic
  else SignMode.fallback

/-- Models `f.startsWith` of `unsigned-<uuid>` combined with `f.includes('signed')`. -/
def matchesSignedName (uuid f : String) : Bool :=
  ("unsigned-" ++ uuid).toList.isPrefixOf f.toList &&
    decide ("signed".toList <:+: f.toList)

def findGenerated (files : List String) (uuid : String) : Option String :=
  files.find? (matchesSignedName uuid)

/-- URL state after strategy 1 (Discord webhook relay, lines 390-410). -/
def urlAfter1 (env : ExtEnv) : String :=
  if env.discordConfigured then
    match env.discordOutcome with
    | some u => u
    | none => ""
  else ""

/-- URL state after strategy 2 (Cloudinary, lines 412-443), attempted
only when no URL was obtained yet. -/
def urlAfter2 (env : ExtEnv) : String :=
  if urlAfter1 env = "" ∧ env.cloudinaryConfigured = true then
    match env.cloudinaryOutcome with
    | some u => u
    | none => urlAfter1 env
  else urlAfter1 env

/-- Strategy 3 (lines 445-450): move the artifact into the download
area and build the URL from the host. -/
def localUrl (req : JobRequest) (env : ExtEnv) : String :=
  env.host ++ "/download/signed-" ++ req.uuid ++ ".apk?filename=" ++
    finalApkName req

structure DeliverOut where
  events : List JobEvent
  url : String
deriving DecidableEq

def runDelivery (req : JobRequest) (env : ExtEnv) : DeliverOut :=
  ⟨(if env.discordConfigured then
      [JobEvent.progress "Uploading to secure cloud storage..." 95]
    else []) ++
   (if urlAfter1 env = "" ∧ env.cloudinaryConfigured = true then
      [JobEvent.progress "Uploading to backup cloud..." 95]
    else []),
   if urlAfter2 env = "" then localUrl req env else urlAfter2 env⟩

/-- The notification trace of one background job, in emission order.
Only the step label of the 15% event depends on the cache state; a
rejected await anywhere jumps to the catch block, which emits one
`error` notification. -/
def runJob (req : JobRequest) (env : ExtEnv) : List JobEvent :=
  let e1 : List JobEvent :=
    [JobEvent.progress "Initializing..." 10,
     JobEvent.progress
       (if env.baseValid then "Initializing environment..."
        else "Decompiling base APK...") 15]
  match env.copyDecodeErr with
  | some m => e1 ++ [JobEvent.error m]
  | none =>
    let e2 := e1 ++
      [JobEvent.progress "Configuring application manifest..." 30,
       JobEvent.progress "Applying security enhancements..." 35,
       JobEvent.progress "Injecting unique user identity..." 45,
       JobEvent.progress "Applying advanced protection..." 50] ++
      (if req.hasIcon then
        [JobEvent.progress "Optimizing and replacing app icons..." 60]
       else []) ++
      [JobEvent.progress "Compiling APK resources..." 70]
    match env.buildErr with
    | some m => e2 ++ [JobEvent.error m]
    | none =>
      let e3 := e2 ++
        [JobEvent.progress "Generating unique signing key..." 80,
         JobEvent.progress "Signing application..." 90]
      match env.signExecErr with
      | some m => e3 ++ [JobEvent.error m]
      | none =>
        match findGenerated env.tempFiles req.uuid with
        | none => e3 ++ [JobEvent.error "Signing failed"]
        | some _ =>
          let d := runDelivery req env
          e3 ++ d.events ++ [JobEvent.ready d.url (finalApkName req)]

def isErrorEvent : JobEvent → Bool
  | JobEvent.error _ => true
  | _ => false

def isReadyEvent : JobEvent → Bool
  | JobEvent.ready _ _ => true
  | _ => false

def errorCount (l : List JobEvent) : Nat := (l.filter isErrorEvent).length

def readyCount (l : List JobEvent) : Nat := (l.filter isReadyEvent).length

def progressPcts (l : List JobEvent) : List Nat :=
  l.filterMap fun e =>
    match e with
    | JobEvent.progress _ p => some p
    | _ => none

def envDiscord : ExtEnv :=
  { baseValid := true, copyDecodeErr := none, buildErr := none,
    keytoolOk := true, keystoreExists := true, signExecErr := none,
    tempFiles := ["unsigned-abc123-aligned-debugSigned.apk"],
    discordConfigured := true,
    discordOutcome := some "https://cdn.example/attachment.apk",
    cloudinaryConfigured := true,
    cloudinaryOutcome := some "https://cloudinary.example/raw.bin",
    host := "https://apk.example" }

def envKeytoolFail : ExtEnv :=
  { baseValid := true, copyDecodeErr := none, buildErr := none,
    keytoolOk := false, keystoreExists := false, signExecErr := none,
    tempFiles := ["unsigned-abc123-aligned-debugSigned.apk"],
    discordConfigured := false, discordOutcome := none,
    cloudinaryConfigured := false, cloudinaryOutcome := none,
    host := "https://apk.example" }

def envSignFail : ExtEnv :=
  { baseValid := true, copyDecodeErr := none, buildErr := none,
    keytoolOk := true, keystoreExists := true,
    signExecErr := some "Command failed: java -jar uber-apk-signer.jar",
    tempFiles := [], discordConfigured := false, discordOutcome := none,
    cloudinaryConfigured := false, cloudinaryOutcome := none,
    host := "https://apk.example" }

/-! ## Theorems -/

theorem replaceAllF_congr (pat rep : List Char) :
    ∀ n m s, s.length ≤ n → s.length ≤ m →
      replaceAllF pat rep n s = replaceAllF pat rep m s := by
  intro n
  induction n with
  | zero =>
    intro m s hn _
    have : s = [] := List.eq_nil_of_length_eq_zero (Nat.le_zero.mp hn)
    subst this
    cases m <;> rfl
  | succ n ih =>
    intro m s hn hm
    cases s with
    | nil => cases m <;> rfl
    | cons c rest =>
      cases m with
      | zero => simp at hm
      | succ m =>
        simp only [replaceAllF]
        simp only [List.length_cons] at hn hm
        by_cases hp : pat ≠ [] ∧ pat.isPrefixOf (c :: rest)
        · simp only [if_pos hp]
          have hdl : ((c :: rest).drop pat.length).length ≤ rest.length := by
            have h1 : 1 ≤ pat.length := List.length_pos.mpr hp.1
            simp only [List.length_drop, List.length_cons]
            omega
          exact congrArg (rep ++ ·)
            (ih m ((c :: rest).drop pat.length) (by omega) (by omega))
        · simp only [if_neg hp]
          exact congrArg (c :: ·) (ih m rest (by omega) (by omega))

theorem replaceAll_nil (pat rep : List Char) : replaceAll pat rep [] = [] := rfl

theorem replaceAll_cons (pat rep : List Char) (c : Char) (rest : List Char) :
    replaceAll pat rep (c :: rest) =
      if pat ≠ [] ∧ pat.isPrefixOf (c :: rest) then
        rep ++ replaceAll pat rep ((c :: rest).drop pat.length)
      else
        c :: replaceAll pat rep rest := by
  show replaceAllF pat rep (c :: rest).length (c :: rest) = _
  simp only [List.length_cons, replaceAllF]
  by_cases hp : pat ≠ [] ∧ pat.isPrefixOf (c :: rest)
  · rw [if_pos hp, if_pos hp]
    have hdl : ((c :: rest).drop pat.length).length ≤ rest.length := by
      have h1 : 1 ≤ pat.length := List.length_pos.mpr hp.1
      simp only [List.length_drop, List.length_cons]
      omega
    exact congrArg (rep ++ ·)
      (replaceAllF_congr pat rep _ _ _ hdl (by simp [List.length_drop]))
  · rw [if_neg hp, if_neg hp]
    rfl

/-! ### Decomposition helpers for prefixes and infixes across appends -/

theorem prefix_append_split {α : Type} {p a b : List α} (h : p <+: a ++ b) :
    p <+: a ∨ ∃ w, p = a ++ w ∧ w <+: b := by
  induction a generalizing p with
  | nil => exact Or.inr ⟨p, rfl, h⟩
  | cons x a ih =>
    cases p with
    | nil => exact Or.inl List.nil_prefix
    | cons y p =>
      rw [List.cons_append, List.cons_prefix_cons] at h
      obtain ⟨rfl, hp⟩ := h
      rcases ih hp with h1 | ⟨w, rfl, hw⟩
      · exact Or.inl (List.cons_prefix_cons.mpr ⟨rfl, h1⟩)
      · exact Or.inr ⟨w, rfl, hw⟩

theorem infix_append_split {α : Type} {z a b : List α} (h : z <:+: a ++ b) :
    z <:+: a ∨ z <:+: b ∨
      ∃ v w, z = v ++ w ∧ v ≠ [] ∧ w ≠ [] ∧ v <:+ a ∧ w <+: b := by
  induction a generalizing z with
  | nil => exact Or.inr (Or.inl h)
  | cons x a ih =>
    rw [List.cons_append, List.infix_cons_iff] at h
    rcases h with h | h
    · cases z with
      | nil => exact Or.inl List.nil_infix
      | cons y z =>
        rw [List.cons_prefix_cons] at h
        obtain ⟨he, hp⟩ := h
        subst he
        rcases prefix_append_split hp with h1 | ⟨w, hzw, hw⟩
        · exact Or.inl ((List.cons_prefix_cons.mpr ⟨rfl, h1⟩).isInfix)
        · rcases eq_or_ne w [] with rfl | hwne
          · refine Or.inl ?_
            have hz : y :: z = y :: a := by simp [hzw]
            rw [hz]
          · refine Or.inr (Or.inr ⟨y :: a, w, by rw [hzw]; simp, by simp, hwne,
              List.suffix_rfl, hw⟩)
    · rcases ih h with h1 | h1 | ⟨v, w, hzw, hv, hw, hva, hwb⟩
      · exact Or.inl (List.infix_cons h1)
      · exact Or.inr (Or.inl h1)
      · exact Or.inr (Or.inr ⟨v, w, hzw, hv, hw,
          hva.trans (List.suffix_cons x a), hwb⟩)

/-- A prefix of `replaceAll pat rep t` that avoids the head character of
`rep` must already be a prefix of `t` itself: replacement chunks all
start with that character, so such a prefix is built purely from copied
source characters. -/
theorem prefix_replaceAll_of_not_mem (pat rep : List Char) (h0 : Char)
    (rt : List Char) (hr : rep = h0 :: rt) :
    ∀ n t, t.length ≤ n → ∀ u : List Char, h0 ∉ u →
      u <+: replaceAll pat rep t → u <+: t := by
  intro n
  induction n with
  | zero =>
    intro t ht u _ hp
    have : t = [] := List.eq_nil_of_length_eq_zero (Nat.le_zero.mp ht)
    subst this
    rw [replaceAll_nil] at hp
    have := List.prefix_nil.mp hp
    subst this
    exact List.nil_prefix
  | succ n ih =>
    intro t ht u hu hp
    cases t with
    | nil =>
      rw [replaceAll_nil] at hp
      have := List.prefix_nil.mp hp
      subst this
      exact List.nil_prefix
    | cons c rest =>
      rw [replaceAll_cons] at hp
      by_cases hm : pat ≠ [] ∧ pat.isPrefixOf (c :: rest)
      · rw [if_pos hm] at hp
        cases u with
        | nil => exact List.nil_prefix
        | cons a u =>
          subst hr
          rw [List.cons_append, List.cons_prefix_cons] at hp
          exact absurd (hp.1 ▸ List.mem_cons_self a u) hu
      · rw [if_neg hm] at hp
        cases u with
        | nil => exact List.nil_prefix
        | cons a u =>
          rw [List.cons_prefix_cons] at hp
          obtain ⟨rfl, hp⟩ := hp
          have hu' : h0 ∉ u := fun hc => hu (List.mem_cons_of_mem _ hc)
          have hlen : rest.length ≤ n := by
            simp only [List.length_cons] at ht; omega
          exact List.cons_prefix_cons.mpr ⟨rfl, ih rest hlen u hu' hp⟩

/-- Core elimination lemma: replacing `pat` by `rep` leaves no occurrence
of a target string `z` (either `z = pat` itself, or a `z` that was absent
beforehand), provided `z` and `rep` share the head character `h0`, `h0`
does not recur inside `z`, some character of `z` never occurs in `rep`,
and the source contains no occurrence of `pat` immediately followed by a
proper nonempty tail of `z` (the only way a replacement boundary can
recreate an occurrence). -/
theorem replaceAll_no_occ (pat rep z zt rt : List Char) (h0 : Char)
    (hz : z = h0 :: zt) (hzt : h0 ∉ zt) (hr : rep = h0 :: rt)
    (hfresh : ∃ ch, ch ∈ z ∧ ch ∉ rep) (hp0 : pat ≠ []) :
    ∀ n t, t.length ≤ n → (z = pat ∨ ¬ z <:+: t) →
      (∀ k, 1 ≤ k → k < z.length → ¬ (pat ++ z.drop k) <:+: t) →
      ¬ z <:+: replaceAll pat rep t := by
  have hzdrop : ∀ k, 1 ≤ k → h0 ∉ z.drop k := by
    intro k hk hmem
    have h1 : z.drop k = (z.drop 1).drop (k - 1) := by
      rw [List.drop_drop]
      congr 1
      omega
    rw [h1] at hmem
    have : h0 ∈ z.drop 1 := List.drop_subset _ _ hmem
    rw [hz] at this
    simp at this
    exact hzt this
  intro n
  induction n with
  | zero =>
    intro t ht _ _ hocc
    have : t = [] := List.eq_nil_of_length_eq_zero (Nat.le_zero.mp ht)
    subst this
    rw [replaceAll_nil] at hocc
    have := List.eq_nil_of_infix_nil hocc
    rw [hz] at this
    exact List.cons_ne_nil _ _ this
  | succ n ih =>
    intro t ht hdisj hSC hocc
    cases t with
    | nil =>
      rw [replaceAll_nil] at hocc
      have := List.eq_nil_of_infix_nil hocc
      rw [hz] at this
      exact List.cons_ne_nil _ _ this
    | cons c rest =>
      rw [replaceAll_cons] at hocc
      by_cases hm : pat ≠ [] ∧ pat.isPrefixOf (c :: rest)
      · rw [if_pos hm] at hocc
        -- the head of `t` matches: `t = pat ++ t₂`
        obtain ⟨t₂, ht₂⟩ := List.isPrefixOf_iff_prefix.mp hm.2
        have hdropt : (c :: rest).drop pat.length = t₂ := by
          rw [← ht₂, List.drop_left]
        rw [hdropt] at hocc
        have ht₂len : t₂.length ≤ n := by
          have := congrArg List.length ht₂
          simp only [List.length_append, List.length_cons] at this
          have hl : 1 ≤ pat.length := List.length_pos.mpr hp0
          simp only [List.length_cons] at ht
          omega
        rcases infix_append_split hocc with hin | hin | ⟨v, w, hvw, hvne, hwne, hvs, hwp⟩
        · -- occurrence inside `rep`: impossible, some char of z is not in rep
          obtain ⟨ch, hch1, hch2⟩ := hfresh
          exact hch2 (hin.subset hch1)
        · -- occurrence inside the recursive result
          refine ih t₂ ht₂len ?_ ?_ hin
          · rcases hdisj with hd | hd
            · exact Or.inl hd
            · refine Or.inr fun hzin => hd ?_
              have : t₂ <:+: c :: rest := by
                rw [← ht₂]
                exact (List.suffix_append pat t₂).isInfix
              exact hzin.trans this
          · intro k hk1 hk2 hzin
            have : t₂ <:+: c :: rest := by
              rw [← ht₂]
              exact (List.suffix_append pat t₂).isInfix
            exact hSC k hk1 hk2 (hzin.trans this)
        · -- occurrence spanning the boundary of the `rep` chunk
          have hwdrop : w = z.drop v.length := by
            rw [hvw, List.drop_left]
          have hv1 : 1 ≤ v.length := by
            cases v with
            | nil => exact absurd rfl hvne
            | cons a l => simp
          have hw0 : h0 ∉ w := hwdrop ▸ hzdrop v.length hv1
          have hwrest : w <+: t₂ :=
            prefix_replaceAll_of_not_mem pat rep h0 rt hr t₂.length t₂
              le_rfl w hw0 hwp
          have hklt : v.length < z.length := by
            have := congrArg List.length hvw
            simp only [List.length_append] at this
            have hw1 : 1 ≤ w.length := by
              cases w with
              | nil => exact absurd rfl hwne
              | cons a l => simp
            omega
          refine hSC v.length hv1 hklt ?_
          rw [← hwdrop, ← ht₂]
          obtain ⟨s, hs⟩ := hwrest
          exact ⟨[], s, by rw [← hs]; simp⟩
      · rw [if_neg hm] at hocc
        have hnp : ¬ pat.isPrefixOf (c :: rest) := fun hc => hm ⟨hp0, hc⟩
        rw [List.infix_cons_iff] at hocc
        rcases hocc with hocc | hocc
        · -- occurrence at the very front
          rw [hz] at hocc
          rcases List.cons_prefix_cons.mp hocc with ⟨he, htl⟩
          have hzrest : zt <+: rest :=
            prefix_replaceAll_of_not_mem pat rep h0 rt hr rest.length rest
              le_rfl zt hzt htl
          have hzpre : z <+: c :: rest := by
            rw [hz, ← he]
            exact List.cons_prefix_cons.mpr ⟨rfl, hzrest⟩
          rcases hdisj with hd | hd
          · exact hnp <| List.isPrefixOf_iff_prefix.mpr <| hd ▸ hzpre
          · exact hd hzpre.isInfix
        · -- occurrence further along
          have hlen : rest.length ≤ n := by
            simp only [List.length_cons] at ht
            omega
          refine ih rest hlen ?_ ?_ hocc
          · rcases hdisj with hd | hd
            · exact Or.inl hd
            · exact Or.inr fun hzin => hd (hzin.trans (List.infix_cons List.infix_rfl))
          · intro k hk1 hk2 hzin
            exact hSC k hk1 hk2 (hzin.trans (List.infix_cons List.infix_rfl))

theorem rawClean_letters (n : Option String) : LettersOnly (rawClean n) := by
  intro c hc
  have := List.mem_filter.mp hc
  have hb := this.2
  simp only [Bool.and_eq_true, decide_eq_true_eq] at hb
  exact hb

theorem cleanFinal_letters (n : Option String) : LettersOnly (cleanFinal n) := by
  unfold cleanFinal
  split
  · intro c hc
    fin_cases hc <;> simp
  · exact rawClean_letters n

theorem cleanFinal_length (n : Option String) : 3 ≤ (cleanFinal n).length := by
  unfold cleanFinal
  split
  · decide
  · omega

theorem randomSuffix_letters (r : RandTuple) : LettersOnly (randomSuffix r) := by
  obtain ⟨a, b, c, d⟩ := r
  intro ch hch
  simp only [randomSuffix, List.mem_cons, List.not_mem_nil, or_false] at hch
  have h : ∀ i : Fin 26, 'a' ≤ lettersTab.getD i.val 'a' ∧
      lettersTab.getD i.val 'a' ≤ 'z' := by decide
  rcases hch with rfl | rfl | rfl | rfl
  · exact h a
  · exact h b
  · exact h c
  · exact h d

theorem randomSuffix_length (r : RandTuple) : (randomSuffix r).length = 4 := by
  simp [randomSuffix]

theorem not_mem_of_letters {l : List Char} (hl : LettersOnly l) {ch : Char}
    (hch : ¬ ('a' ≤ ch ∧ ch ≤ 'z')) : ch ∉ l :=
  fun hmem => hch (hl ch hmem)

theorem newPackageName_cons (n : Option String) (r : RandTuple) :
    newPackageName n r =
      'c' :: ("om.".toList ++ cleanFinal n ++ ".".toList ++ randomSuffix r) := rfl

theorem four_not_in_newPackageName (n : Option String) (r : RandTuple) :
    '4' ∉ newPackageName n r := by
  intro h
  unfold newPackageName at h
  rcases List.mem_append.mp h with h | h
  · rcases List.mem_append.mp h with h | h
    · rcases List.mem_append.mp h with h | h
      · simp at h
      · exact not_mem_of_letters (cleanFinal_letters n) (by decide) h
    · simp at h
  · exact not_mem_of_letters (randomSuffix_letters r) (by decide) h

theorem slash_not_in_newPackageName (n : Option String) (r : RandTuple) :
    '/' ∉ newPackageName n r := by
  intro h
  unfold newPackageName at h
  rcases List.mem_append.mp h with h | h
  · rcases List.mem_append.mp h with h | h
    · rcases List.mem_append.mp h with h | h
      · simp at h
      · exact not_mem_of_letters (cleanFinal_letters n) (by decide) h
    · simp at h
  · exact not_mem_of_letters (randomSuffix_letters r) (by decide) h

theorem dot_not_in_slashified (l : List Char) : '.' ∉ slashified l := by
  intro h
  obtain ⟨c, _, hc⟩ := List.mem_map.mp h
  by_cases hcd : c = '.'
  · rw [if_pos hcd] at hc
    exact absurd hc (by decide)
  · rw [if_neg hcd] at hc
    exact hcd hc

theorem mem_slashified {l : List Char} {ch : Char} (hmem : ch ∈ slashified l)
    (hsl : ch ≠ '/') : ch ∈ l := by
  obtain ⟨c, hcl, hc⟩ := List.mem_map.mp hmem
  by_cases hcd : c = '.'
  · rw [if_pos hcd] at hc
    exact absurd hc.symm hsl
  · rw [if_neg hcd] at hc
    exact hc ▸ hcl

theorem slashified_newPackageName_cons (n : Option String) (r : RandTuple) :
    slashified (newPackageName n r) =
      'c' :: slashified ("om.".toList ++ cleanFinal n ++ ".".toList ++ randomSuffix r) := by
  rw [newPackageName_cons]
  rfl

theorem not_mem_drop_of_one {l : List Char} {ch : Char} (h1 : ch ∉ l.drop 1)
    {k : Nat} (hk : 1 ≤ k) : ch ∉ l.drop k := by
  intro hmem
  have he : l.drop k = (l.drop 1).drop (k - 1) := by
    rw [List.drop_drop]
    congr 1
    omega
  rw [he] at hmem
  exact h1 (List.drop_subset _ _ hmem)

theorem oldPackageName_length : oldPackageName.length = 20 := by decide

theorem oldPackagePath_length : oldPackagePath.length = 20 := by decide

/-- Occurrences of the dotted token are eliminated by its global
replacement (used for `AndroidManifest.xml` and `apktool.yml`). -/
theorem manifest_no_residual (n : Option String) (r : RandTuple) (c : List Char)
    (hIso : Isolated c) :
    ¬ oldPackageName <:+: replaceAll oldPackageName (newPackageName n r) c := by
  refine replaceAll_no_occ oldPackageName (newPackageName n r) oldPackageName
    "om.h4k3r.galleryeye".toList
    ("om.".toList ++ cleanFinal n ++ ".".toList ++ randomSuffix r) 'c'
    rfl (by decide) (newPackageName_cons n r)
    ⟨'4', by decide, four_not_in_newPackageName n r⟩ (by decide)
    c.length c le_rfl (Or.inl rfl) ?_
  intro k hk1 hk2
  rw [oldPackageName_length] at hk2
  exact (hIso k hk2 hk1).1

/-- Discharges the boundary side condition of the second (dotted-form)
smali replacement against the original file content: patterns of the
form `oldPackageName ++ B.drop k₀` cannot occur in the intermediate
unless `Isolated` is violated in the original. -/
theorem sc_glue (c : List Char) (B : List Char) (hBlen : B.length = 20)
    (hcomp3 : ∀ j, 1 ≤ j → j < 20 → ¬ (oldPackagePath ++ oldPackageName.drop j) <:+: c)
    (hcompB : ∀ j, 1 ≤ j → j < 20 → ¬ (oldPackagePath ++ B.drop j) <:+: c)
    (k₀ : Nat) (hk01 : 1 ≤ k₀) (hk02 : k₀ < 20) :
    ∀ k₂, 1 ≤ k₂ → k₂ < (oldPackageName ++ B.drop k₀).length →
      ¬ (oldPackagePath ++ (oldPackageName ++ B.drop k₀).drop k₂) <:+: c := by
  intro k₂ h1 h2 hocc
  have hlen2 : (oldPackageName ++ B.drop k₀).length = 20 + (20 - k₀) := by
    rw [List.length_append, List.length_drop, hBlen, oldPackageName_length]
  rw [hlen2] at h2
  by_cases hlt : k₂ < 20
  · have hk2le : k₂ ≤ oldPackageName.length := by
      rw [oldPackageName_length]; omega
    rw [List.drop_append_of_le_length hk2le] at hocc
    have hpre : (oldPackagePath ++ oldPackageName.drop k₂) <+:
        (oldPackagePath ++ (oldPackageName.drop k₂ ++ B.drop k₀)) :=
      ⟨B.drop k₀, by simp⟩
    exact hcomp3 k₂ h1 hlt (hpre.isInfix.trans hocc)
  · push_neg at hlt
    have he : (oldPackageName ++ B.drop k₀).drop k₂ = B.drop (k₂ - 20 + k₀) := by
      rw [List.drop_append_eq_append_drop, List.drop_drop,
        List.drop_eq_nil_of_le (by rw [oldPackageName_length]; omega),
        List.nil_append, oldPackageName_length]
      congr 1
      omega
    rw [he] at hocc
    exact hcompB (k₂ - 20 + k₀) (by omega) (by omega) hocc

/-- After the path-form smali replacement, no pattern
`oldPackageName ++ oldPackageName.drop k₀` occurs. -/
theorem inter_no_dotted_pair (n : Option String) (r : RandTuple) (c : List Char)
    (hIso : Isolated c) (k₀ : Nat) (hk01 : 1 ≤ k₀) (hk02 : k₀ < 20) :
    ¬ (oldPackageName ++ oldPackageName.drop k₀) <:+:
        replaceAll oldPackagePath (slashified (newPackageName n r)) c := by
  refine replaceAll_no_occ oldPackagePath (slashified (newPackageName n r))
    (oldPackageName ++ oldPackageName.drop k₀)
    ("om.h4k3r.galleryeye".toList ++ oldPackageName.drop k₀)
    (slashified ("om.".toList ++ cleanFinal n ++ ".".toList ++ randomSuffix r)) 'c'
    rfl ?_ (slashified_newPackageName_cons n r)
    ⟨'.', List.mem_append_left _ (by decide), dot_not_in_slashified _⟩ (by decide)
    c.length c le_rfl (Or.inr (hIso k₀ hk02 hk01).1) ?_
  · intro hmem
    rcases List.mem_append.mp hmem with h | h
    · exact absurd h (by decide)
    · exact not_mem_drop_of_one (l := oldPackageName) (by decide) hk01 h
  · exact sc_glue c oldPackageName oldPackageName_length
      (fun j hj1 hj2 => (hIso j hj2 hj1).2.2.1)
      (fun j hj1 hj2 => (hIso j hj2 hj1).2.2.1) k₀ hk01 hk02

/-- After the path-form smali replacement, no pattern
`oldPackageName ++ oldPackagePath.drop k₀` occurs. -/
theorem inter_no_mixed_pair (n : Option String) (r : RandTuple) (c : List Char)
    (hIso : Isolated c) (k₀ : Nat) (hk01 : 1 ≤ k₀) (hk02 : k₀ < 20) :
    ¬ (oldPackageName ++ oldPackagePath.drop k₀) <:+:
        replaceAll oldPackagePath (slashified (newPackageName n r)) c := by
  refine replaceAll_no_occ oldPackagePath (slashified (newPackageName n r))
    (oldPackageName ++ oldPackagePath.drop k₀)
    ("om.h4k3r.galleryeye".toList ++ oldPackagePath.drop k₀)
    (slashified ("om.".toList ++ cleanFinal n ++ ".".toList ++ randomSuffix r)) 'c'
    rfl ?_ (slashified_newPackageName_cons n r)
    ⟨'.', List.mem_append_left _ (by decide), dot_not_in_slashified _⟩ (by decide)
    c.length c le_rfl (Or.inr (hIso k₀ hk02 hk01).2.1) ?_
  · intro hmem
    rcases List.mem_append.mp hmem with h | h
    · exact absurd h (by decide)
    · exact not_mem_drop_of_one (l := oldPackagePath) (by decide) hk01 h
  · exact sc_glue c oldPackagePath oldPackagePath_length
      (fun j hj1 hj2 => (hIso j hj2 hj1).2.2.1)
      (fun j hj1 hj2 => (hIso j hj2 hj1).2.2.2) k₀ hk01 hk02

/-- After the path-form smali replacement, the path-form token itself is
gone. -/
theorem inter_no_path (n : Option String) (r : RandTuple) (c : List Char)
    (hIso : Isolated c) :
    ¬ oldPackagePath <:+:
        replaceAll oldPackagePath (slashified (newPackageName n r)) c := by
  refine replaceAll_no_occ oldPackagePath (slashified (newPackageName n r))
    oldPackagePath "om/h4k3r/galleryeye".toList
    (slashified ("om.".toList ++ cleanFinal n ++ ".".toList ++ randomSuffix r)) 'c'
    (by decide) (by decide) (slashified_newPackageName_cons n r)
    ⟨'4', by decide, fun h =>
      four_not_in_newPackageName n r (mem_slashified h (by decide))⟩ (by decide)
    c.length c le_rfl (Or.inl rfl) ?_
  intro k hk1 hk2
  rw [oldPackagePath_length] at hk2
  exact (hIso k hk2 hk1).2.2.2

/-- The composed smali rewrite leaves no occurrence of the dotted token. -/
theorem smali_no_dotted (n : Option String) (r : RandTuple) (c : List Char)
    (hIso : Isolated c) :
    ¬ oldPackageName <:+: replaceAll oldPackageName (newPackageName n r)
        (replaceAll oldPackagePath (slashified (newPackageName n r)) c) := by
  refine replaceAll_no_occ oldPackageName (newPackageName n r) oldPackageName
    "om.h4k3r.galleryeye".toList
    ("om.".toList ++ cleanFinal n ++ ".".toList ++ randomSuffix r) 'c'
    rfl (by decide) (newPackageName_cons n r)
    ⟨'4', by decide, four_not_in_newPackageName n r⟩ (by decide)
    _ _ le_rfl (Or.inl rfl) ?_
  intro k hk1 hk2
  rw [oldPackageName_length] at hk2
  exact inter_no_dotted_pair n r c hIso k hk1 hk2

/-- The composed smali rewrite leaves no occurrence of the path-form
token either. -/
theorem smali_no_path (n : Option String) (r : RandTuple) (c : List Char)
    (hIso : Isolated c) :
    ¬ oldPackagePath <:+: replaceAll oldPackageName (newPackageName n r)
        (replaceAll oldPackagePath (slashified (newPackageName n r)) c) := by
  refine replaceAll_no_occ oldPackageName (newPackageName n r) oldPackagePath
    "om/h4k3r/galleryeye".toList
    ("om.".toList ++ cleanFinal n ++ ".".toList ++ randomSuffix r) 'c'
    (by decide) (by decide) (newPackageName_cons n r)
    ⟨'/', by decide, slash_not_in_newPackageName n r⟩ (by decide)
    _ _ le_rfl (Or.inr (inter_no_path n r c hIso)) ?_
  intro k hk1 hk2
  rw [oldPackagePath_length] at hk2
  exact inter_no_mixed_pair n r c hIso k hk1 hk2

/-! ### Claim C1 -/

/-- C1 counterexample: the rename step only touches the manifest, the
build descriptor and `.smali` files under the three smali roots, so a
working tree holding the dotted token in any other file (here a resource
file) keeps it verbatim — the claimed "zero occurrences in any file of
the working tree" is false. -/
theorem claim_C1_counterexample :
    ∃ e ∈ renameStep (newPackageName (some "gallery") cexRand) cexTree,
      oldPackageName <:+: e.content := by decide

/-- C1 (amended): the identity-rename step leaves every file other than
`AndroidManifest.xml`, `apktool.yml` and `.smali` files under the three
smali roots unchanged; in `AndroidManifest.xml` and `apktool.yml` no
occurrence of the dotted token remains, and in the covered `.smali`
files no occurrence of either the dotted or the path-segment form
remains, provided the file content contains no occurrence of either
form of the old token immediately followed by a proper nonempty tail of
either form (`Isolated`). -/
theorem claim_C1 : ∀ (n : Option String) (r : RandTuple) (e : FileEntry),
    (e.path ≠ ["AndroidManifest.xml"] → e.path ≠ ["apktool.yml"] →
      isSmaliFilePath e.path = false → renameFile (newPackageName n r) e = e) ∧
    (Isolated e.content →
      ((e.path = ["AndroidManifest.xml"] ∨ e.path = ["apktool.yml"]) →
        ¬ oldPackageName <:+: (renameFile (newPackageName n r) e).content) ∧
      (isSmaliFilePath e.path = true →
        ¬ oldPackageName <:+: (renameFile (newPackageName n r) e).content ∧
        ¬ oldPackagePath <:+: (renameFile (newPackageName n r) e).content)) := by
  intro n r e
  constructor
  · intro h1 h2 h3
    simp [renameFile, h1, h2, h3]
  · intro hIso
    constructor
    · intro hpath
      have hcontent : (renameFile (newPackageName n r) e).content =
          replaceAll oldPackageName (newPackageName n r) e.content := by
        rcases hpath with hpe | hpe <;> simp [renameFile, hpe]
      rw [hcontent]
      exact manifest_no_residual n r e.content hIso
    · intro hsm
      have h1 : e.path ≠ ["AndroidManifest.xml"] := by
        intro he
        rw [he] at hsm
        exact absurd hsm (by decide)
      have h2 : e.path ≠ ["apktool.yml"] := by
        intro he
        rw [he] at hsm
        exact absurd hsm (by decide)
      have hcontent : (renameFile (newPackageName n r) e).content =
          replaceAll oldPackageName (newPackageName n r)
            (replaceAll oldPackagePath (slashified (newPackageName n r))
              e.content) := by
        simp [renameFile, h1, h2, hsm]
      rw [hcontent]
      exact ⟨smali_no_dotted n r e.content hIso, smali_no_path n r e.content hIso⟩

/-- Witness for C1 at a concrete smali file containing the path-form
token. -/
theorem claim_C1_witness :
    ¬ oldPackageName <:+:
        (renameFile (newPackageName (some "My Cam") cexRand) witnessEntry).content ∧
    ¬ oldPackagePath <:+:
        (renameFile (newPackageName (some "My Cam") cexRand) witnessEntry).content :=
  ((claim_C1 (some "My Cam") cexRand witnessEntry).2 (by decide)).2 (by decide)

/-! ### Claim C9 -/

/-- C9: every generated replacement identity has the form
`com.<middle>.<suffix>` where `<middle>` is the lower-cased display name
with all non-letters removed when at least three letters survive and
`gallery` otherwise, and `<suffix>` is exactly four lowercase letters;
hence every package segment begins with a lowercase letter. -/
theorem claim_C9 : ∀ (n : Option String) (r : RandTuple),
    ∃ m x, newPackageName n r = "com.".toList ++ m ++ ".".toList ++ x ∧
      3 ≤ m.length ∧ LettersOnly m ∧ x.length = 4 ∧ LettersOnly x ∧
      m = (if (rawClean n).length < 3 then "gallery".toList else rawClean n) ∧
      (∃ c0 mt, m = c0 :: mt ∧ 'a' ≤ c0 ∧ c0 ≤ 'z') ∧
      (∃ c0 xt, x = c0 :: xt ∧ 'a' ≤ c0 ∧ c0 ≤ 'z') := by
  intro n r
  refine ⟨cleanFinal n, randomSuffix r, rfl, cleanFinal_length n,
    cleanFinal_letters n, randomSuffix_length r, randomSuffix_letters r,
    rfl, ?_, ?_⟩
  · match hm : cleanFinal n with
    | [] =>
      have := cleanFinal_length n
      rw [hm] at this
      simp at this
    | c0 :: mt =>
      have hmem : c0 ∈ cleanFinal n := by rw [hm]; simp
      obtain ⟨ha, hb⟩ := cleanFinal_letters n c0 hmem
      exact ⟨c0, mt, rfl, ha, hb⟩
  · match hx : randomSuffix r with
    | [] =>
      have := randomSuffix_length r
      rw [hx] at this
      simp at this
    | c0 :: xt =>
      have hmem : c0 ∈ randomSuffix r := by rw [hx]; simp
      obtain ⟨ha, hb⟩ := randomSuffix_letters r c0 hmem
      exact ⟨c0, xt, rfl, ha, hb⟩

/-- Witness instantiating C9 at a concrete job. -/
theorem claim_C9_witness :
    ∃ m x, newPackageName (some "Gallery Eye 2024!") cexRand =
        "com.".toList ++ m ++ ".".toList ++ x ∧
      3 ≤ m.length ∧ LettersOnly m ∧ x.length = 4 ∧ LettersOnly x ∧
      m = (if (rawClean (some "Gallery Eye 2024!")).length < 3
            then "gallery".toList else rawClean (some "Gallery Eye 2024!")) ∧
      (∃ c0 mt, m = c0 :: mt ∧ 'a' ≤ c0 ∧ c0 ≤ 'z') ∧
      (∃ c0 xt, x = c0 :: xt ∧ 'a' ≤ c0 ∧ c0 ≤ 'z') :=
  claim_C9 (some "Gallery Eye 2024!") cexRand

theorem findClose_sound :
    ∀ s mid rest, findClose s = some (mid, rest) →
      s = mid ++ closeTag ++ rest := by
  intro s
  induction s with
  | nil => intro mid rest h; simp [findClose] at h
  | cons c r ih =>
    intro mid rest h
    rw [findClose] at h
    by_cases hp : closeTag.isPrefixOf (c :: r)
    · rw [if_pos hp] at h
      obtain ⟨t2, ht2⟩ := List.isPrefixOf_iff_prefix.mp hp
      have hdrop : (c :: r).drop closeTag.length = t2 := by
        rw [← ht2]
        exact List.drop_left _ _
      rw [hdrop] at h
      rw [Option.some_inj] at h
      cases h
      simpa using ht2.symm
    · rw [if_neg hp] at h
      by_cases hn : isNewlineChar c
      · rw [if_pos hn] at h
        simp at h
      · rw [if_neg hn] at h
        rcases Option.map_eq_some'.mp h with ⟨⟨m1, r1⟩, hrec, heq⟩
        simp only at heq
        cases heq
        simp [ih _ _ hrec, List.append_assoc]

theorem findMatch_sound :
    ∀ s pre mid rest, findMatch s = some (pre, mid, rest) →
      s = pre ++ openTag ++ mid ++ closeTag ++ rest := by
  intro s
  induction s with
  | nil => intro pre mid rest h; simp [findMatch] at h
  | cons c r ih =>
    intro pre mid rest h
    rw [findMatch] at h
    by_cases hp : openTag.isPrefixOf (c :: r)
    · rw [if_pos hp] at h
      obtain ⟨t2, ht2⟩ := List.isPrefixOf_iff_prefix.mp hp
      have hdrop : (c :: r).drop openTag.length = t2 := by
        rw [← ht2]
        exact List.drop_left _ _
      rw [hdrop] at h
      cases hfc : findClose t2 with
      | some p =>
        obtain ⟨m1, r1⟩ := p
        rw [hfc] at h
        rw [Option.some_inj] at h
        cases h
        have := findClose_sound t2 _ _ hfc
        rw [this] at ht2
        simp only [List.nil_append]
        rw [← ht2]
        simp [List.append_assoc]
      | none =>
        rw [hfc] at h
        rcases Option.map_eq_some'.mp h with ⟨⟨p1, p2, p3⟩, hrec, heq⟩
        simp only at heq
        cases heq
        simp [ih _ _ _ hrec, List.append_assoc]
    · rw [if_neg hp] at h
      rcases Option.map_eq_some'.mp h with ⟨⟨p1, p2, p3⟩, hrec, heq⟩
      simp only at heq
      cases heq
      simp [ih _ _ _ hrec, List.append_assoc]

theorem expandRepl_no_dollar (matched before after : List Char) :
    ∀ tmpl, '$' ∉ tmpl → expandRepl matched before after tmpl = tmpl := by
  intro tmpl
  induction tmpl with
  | nil => intro _; rfl
  | cons c rest ih =>
    intro hnd
    have hc : c ≠ '$' := fun hc => hnd (hc ▸ List.mem_cons_self c rest)
    have hrest : '$' ∉ rest := fun hm => hnd (List.mem_cons_of_mem _ hm)
    have hstep : expandRepl matched before after (c :: rest) =
        c :: expandRepl matched before after rest := by
      rw [expandRepl.eq_def]
      simp only [if_neg hc]
    rw [hstep, ih hrest]

/-! ### Claim C6 -/

/-- C6: the display-name set is an exact first-match replacement: when
the resource file contains a display-name tag the file splits as
`pre ++ openTag ++ mid ++ closeTag ++ rest` around the first match and
the result only rebuilds that tag around the new value, leaving `pre`
and `rest` untouched; when no tag matches the file is byte-identical. -/
theorem claim_C6 : ∀ (content newVal : List Char),
    (findMatch content = none → replaceAppName content newVal = content) ∧
    (∀ pre mid rest, findMatch content = some (pre, mid, rest) → '$' ∉ newVal →
      content = pre ++ openTag ++ mid ++ closeTag ++ rest ∧
      replaceAppName content newVal =
        pre ++ openTag ++ newVal ++ closeTag ++ rest) ∧
    (∀ pre mid rest, findMatch content = some (pre, mid, rest) →
      ∃ newTag, replaceAppName content newVal = pre ++ newTag ++ rest) := by
  intro content newVal
  refine ⟨?_, ?_, ?_⟩
  · intro h
    unfold replaceAppName
    rw [h]
  case refine_3 =>
    intro pre mid rest h
    refine ⟨expandRepl (openTag ++ mid ++ closeTag) pre rest
      (openTag ++ newVal ++ closeTag), ?_⟩
    unfold replaceAppName
    rw [h]
  · intro pre mid rest h hnd
    refine ⟨findMatch_sound content pre mid rest h, ?_⟩
    have hre : replaceAppName content newVal =
        pre ++ expandRepl (openTag ++ mid ++ closeTag) pre rest
          (openTag ++ newVal ++ closeTag) ++ rest := by
      unfold replaceAppName
      rw [h]
    rw [hre]
    have hnd2 : '$' ∉ openTag ++ newVal ++ closeTag := by
      intro hmem
      rcases List.mem_append.mp hmem with hmem | hmem
      · rcases List.mem_append.mp hmem with hmem | hmem
        · exact absurd hmem (by decide)
        · exact hnd hmem
      · exact absurd hmem (by decide)
    rw [expandRepl_no_dollar _ _ _ _ hnd2]
    simp [List.append_assoc]

/-- Witness for C6 on a concrete strings resource: the first (only)
display-name tag is rewritten in place and everything else survives. -/
theorem claim_C6_witness :
    witnessStrings = "<resources>\n    ".toList ++ openTag ++
        "Gallery Eye".toList ++ closeTag ++
        "\n    <string name=\"title\">Photos</string>\n</resources>\n".toList ∧
      replaceAppName witnessStrings "My Cam".toList =
        "<resources>\n    ".toList ++ openTag ++ "My Cam".toList ++ closeTag ++
        "\n    <string name=\"title\">Photos</string>\n</resources>\n".toList :=
  (claim_C6 witnessStrings "My Cam".toList).2.1
    "<resources>\n    ".toList "Gallery Eye".toList
    "\n    <string name=\"title\">Photos</string>\n</resources>\n".toList
    (by decide) (by decide)

theorem firstIndexOf_none (pat : List Char) (hp : pat ≠ []) :
    ∀ s, firstIndexOf pat s = none → ¬ pat <:+: s := by
  intro s
  induction s with
  | nil =>
    intro _ hocc
    have := List.eq_nil_of_infix_nil hocc
    exact hp this
  | cons c r ih =>
    intro h hocc
    rw [firstIndexOf] at h
    by_cases hpre : pat.isPrefixOf (c :: r)
    · rw [if_pos hpre] at h
      simp at h
    · rw [if_neg hpre] at h
      rcases List.infix_cons_iff.mp hocc with hocc | hocc
      · exact hpre <| List.isPrefixOf_iff_prefix.mpr hocc
      · exact ih (by simpa using h) hocc

theorem firstIndexOf_sound (pat : List Char) :
    ∀ s i, firstIndexOf pat s = some i → pat.isPrefixOf (s.drop i) := by
  intro s
  induction s with
  | nil =>
    intro i h
    rw [firstIndexOf] at h
    by_cases hpre : pat.isPrefixOf ([] : List Char)
    · rw [if_pos hpre] at h
      rw [Option.some_inj] at h
      subst h
      exact hpre
    · rw [if_neg hpre] at h
      simp at h
  | cons c r ih =>
    intro i h
    rw [firstIndexOf] at h
    by_cases hpre : pat.isPrefixOf (c :: r)
    · rw [if_pos hpre] at h
      rw [Option.some_inj] at h
      subst h
      exact hpre
    · rw [if_neg hpre] at h
      rcases Option.map_eq_some'.mp h with ⟨j, hrec, hj⟩
      subst hj
      simpa using ih j hrec

/-! ### Claim C7 -/

/-- C7: if the anchor substring is absent the permission-injection step
returns the manifest unchanged (and raises no error — the function is
total); if the anchor is found at position `i`, the result is the
manifest with the requested permission lines spliced in immediately
before position `i`, the anchor starting right at the splice point, and
each requested permission line occurs in the result. -/
theorem claim_C7 : ∀ (sms contacts : Option String) (manifest : List Char),
    (firstIndexOf permissionAnchor manifest = none →
      injectPermissionsContent sms contacts manifest = manifest ∧
      ¬ permissionAnchor <:+: manifest) ∧
    (∀ i, firstIndexOf permissionAnchor manifest = some i →
      permissionAnchor.isPrefixOf (manifest.drop i) ∧
      injectPermissionsContent sms contacts manifest =
        manifest.take i ++ permsToAdd sms contacts ++ manifest.drop i ∧
      (sms = some "true" →
        smsPermissionLine <:+: injectPermissionsContent sms contacts manifest) ∧
      (contacts = some "true" →
        contactsPermissionLine <:+:
          injectPermissionsContent sms contacts manifest)) := by
  intro sms contacts manifest
  constructor
  · intro h
    refine ⟨?_, firstIndexOf_none permissionAnchor (by decide) manifest h⟩
    unfold injectPermissionsContent
    rw [h]
  · intro i h
    have hsplice : injectPermissionsContent sms contacts manifest =
        manifest.take i ++ permsToAdd sms contacts ++ manifest.drop i := by
      unfold injectPermissionsContent
      rw [h]
      by_cases hadds : permsToAdd sms contacts = []
      · simp [hadds]
      · simp [hadds]
    refine ⟨firstIndexOf_sound permissionAnchor manifest i h, hsplice, ?_, ?_⟩
    · intro hsms
      rw [hsplice]
      have hmem : smsPermissionLine <:+: permsToAdd sms contacts := by
        unfold permsToAdd
        rw [if_pos hsms]
        exact (List.prefix_append _ _).isInfix
      exact hmem.trans ⟨manifest.take i, manifest.drop i, by simp⟩
    · intro hcon
      rw [hsplice]
      have hmem : contactsPermissionLine <:+: permsToAdd sms contacts := by
        unfold permsToAdd
        rw [if_pos hcon]
        exact (List.suffix_append _ _).isInfix
      exact hmem.trans ⟨manifest.take i, manifest.drop i, by simp⟩

set_option maxRecDepth 8000 in
/-- Witness for C7: both permissions requested against a manifest whose
anchor sits at position 82. -/
theorem claim_C7_witness :
    permissionAnchor.isPrefixOf (witnessManifest.drop 82) ∧
    injectPermissionsContent (some "true") (some "true") witnessManifest =
      witnessManifest.take 82 ++ permsToAdd (some "true") (some "true") ++
        witnessManifest.drop 82 ∧
    (some "true" = some "true" →
      smsPermissionLine <:+:
        injectPermissionsContent (some "true") (some "true") witnessManifest) ∧
    (some "true" = some "true" →
      contactsPermissionLine <:+:
        injectPermissionsContent (some "true") (some "true") witnessManifest) :=
  (claim_C7 (some "true") (some "true") witnessManifest).2 82 (by decide)

/-! ### Claim C10 -/

/-- C10: each boolean of the payload configuration is `true` exactly
when the corresponding request field is the literal string `true`
(anything else, including `True`, `1` or absence, yields `false`); the
auxiliary link defaults to the empty string and the display name to
`Gallery Eye` when the fields are absent. -/
theorem claim_C10 : ∀ req : JobRequest,
    ((buildConfig req).hideApp = true ↔ req.hideApp = some "true") ∧
    ((buildConfig req).enableSmsPermission = true ↔
      req.enableSmsPermission = some "true") ∧
    ((buildConfig req).enableContactsPermission = true ↔
      req.enableContactsPermission = some "true") ∧
    (req.webLink = none → (buildConfig req).webLink = "") ∧
    (req.appName = none → (buildConfig req).appName = "Gallery Eye") := by
  intro req
  refine ⟨?_, ?_, ?_, ?_, ?_⟩
  · simp [buildConfig]
  · simp [buildConfig]
  · simp [buildConfig]
  · intro h
    simp [buildConfig, h]
  · intro h
    simp [buildConfig, h]

/-- Witness for C10: `True` and `1` are rejected, `true` accepted, and
both defaults fire. -/
theorem claim_C10_witness :
    ((buildConfig witnessReq).hideApp = true ↔ witnessReq.hideApp = some "true") ∧
    ((buildConfig witnessReq).enableSmsPermission = true ↔
      witnessReq.enableSmsPermission = some "true") ∧
    ((buildConfig witnessReq).enableContactsPermission = true ↔
      witnessReq.enableContactsPermission = some "true") ∧
    (witnessReq.webLink = none → (buildConfig witnessReq).webLink = "") ∧
    (witnessReq.appName = none → (buildConfig witnessReq).appName = "Gallery Eye") :=
  claim_C10 witnessReq

/-! ### Claim C2 -/

/-- C2 counterexample: for a concrete job the code applies the
display-name set *before* the identity rename, so the step sequence is
not the claimed one (which puts the identity rename first). -/
theorem claim_C2_counterexample :
    mutatorTrace witnessReq cexRand ≠ claimedMutatorOrder ∧
    (mutatorTrace witnessReq cexRand).indexOf MutStep.displayNameSet <
      (mutatorTrace witnessReq cexRand).indexOf MutStep.identityRename := by
  constructor
  · decide
  · decide

/-- C2 (amended): for every job the Mutator's five sub-steps run in
exactly this order — (1) display-name set, (2) identity rename,
(3) payload injection, (4) permission injection, (5) cosmetic
obfuscation — and the composite mutator is literally the composition of
the five step functions in that order. -/
theorem claim_C2 : ∀ (req : JobRequest) (r : RandTuple) (t : WorkTree),
    mutatorTrace req r =
      [MutStep.displayNameSet, MutStep.identityRename,
       MutStep.payloadInjection, MutStep.permissionInjection,
       MutStep.cosmeticObfuscation] ∧
    runMutator req r t =
      obfuscationStep
        (permissionStep req.enableSmsPermission req.enableContactsPermission
          (injectConfigStep req
            (renameStep (newPackageName req.appName r)
              (displayNameStep req.appName t)))) := by
  intro req r t
  exact ⟨rfl, rfl⟩

/-! ### Claim C8 -/

/-- C8: on every execution path (any combination of cache state, icon
presence, failure point and delivery strategy outcomes) the percentages
carried by the emitted progress notifications are monotonically
non-decreasing in emission order. -/
theorem claim_C8 : ∀ (req : JobRequest) (env : ExtEnv),
    List.Sorted (· ≤ ·) (progressPcts (runJob req env)) := by
  intro req env
  cases h1 : env.copyDecodeErr with
  | some m =>
    simp [runJob, h1, progressPcts]
  | none =>
    cases h2 : env.buildErr with
    | some m =>
      cases hic : req.hasIcon <;>
        simp [runJob, h1, h2, hic, progressPcts]
    | none =>
      cases h3 : env.signExecErr with
      | some m =>
        cases hic : req.hasIcon <;>
          simp [runJob, h1, h2, h3, hic, progressPcts]
      | none =>
        cases h4 : findGenerated env.tempFiles req.uuid with
        | none =>
          cases hic : req.hasIcon <;>
            simp [runJob, h1, h2, h3, h4, hic, progressPcts]
        | some g =>
          cases hic : req.hasIcon <;>
            cases hdc : env.discordConfigured <;>
            by_cases hcc : (urlAfter1 env = "" ∧ env.cloudinaryConfigured = true) <;>
            simp [runJob, runDelivery, h1, h2, h3, h4, hic, hdc, hcc,
              progressPcts]

/-- Whenever the pipeline reaches delivery with a signed artifact, the
job ends with a `ready` notification and no `error`, regardless of the
delivery-strategy outcomes and of the keytool outcome. -/
theorem job_success_trace : ∀ (req : JobRequest) (env : ExtEnv),
    env.copyDecodeErr = none → env.buildErr = none → env.signExecErr = none →
    (∃ g, findGenerated env.tempFiles req.uuid = some g) →
    errorCount (runJob req env) = 0 ∧
    JobEvent.ready (runDelivery req env).url (finalApkName req) ∈
      runJob req env := by
  intro req env h1 h2 h3 ⟨g, h4⟩
  constructor
  · cases hic : req.hasIcon <;>
      cases hdc : env.discordConfigured <;>
      by_cases hcc : (urlAfter1 env = "" ∧ env.cloudinaryConfigured = true) <;>
      simp [runJob, runDelivery, h1, h2, h3, h4, hic, hdc, hcc, errorCount,
        isErrorEvent]
  · simp [runJob, h1, h2, h3, h4]

/-! ### Claim C3 -/

/-- C3: delivery strategies run in the fixed order webhook relay, object
storage, local fallback; a later strategy is attempted only when no URL
has been obtained; the returned URL is the one produced by the first
strategy that succeeds; and no combination of strategy outcomes makes
the job fail — whenever the pipeline reaches delivery it still emits
`ready` and no `error`. -/
theorem claim_C3 : ∀ (req : JobRequest) (env : ExtEnv),
    (∀ u, env.discordConfigured = true → env.discordOutcome = some u →
      u ≠ "" → (runDelivery req env).url = u) ∧
    (∀ v, urlAfter1 env = "" → env.cloudinaryConfigured = true →
      env.cloudinaryOutcome = some v → v ≠ "" →
      (runDelivery req env).url = v) ∧
    (urlAfter2 env = "" → (runDelivery req env).url = localUrl req env) ∧
    (JobEvent.progress "Uploading to backup cloud..." 95 ∈
        (runDelivery req env).events ↔
      env.cloudinaryConfigured = true ∧ urlAfter1 env = "") ∧
    (env.copyDecodeErr = none → env.buildErr = none → env.signExecErr = none →
      (∃ g, findGenerated env.tempFiles req.uuid = some g) →
      errorCount (runJob req env) = 0 ∧
      JobEvent.ready (runDelivery req env).url (finalApkName req) ∈
        runJob req env) := by
  intro req env
  refine ⟨?_, ?_, ?_, ?_, ?_⟩
  · intro u hdc hout hne
    have h1 : urlAfter1 env = u := by simp [urlAfter1, hdc, hout]
    have h2 : urlAfter2 env = u := by
      unfold urlAfter2
      rw [if_neg (by rw [h1]; exact fun hc => hne hc.1)]
      exact h1
    simp [runDelivery, h2, hne]
  · intro v h1 hcc hout hne
    have h2 : urlAfter2 env = v := by
      unfold urlAfter2
      rw [if_pos ⟨h1, hcc⟩, hout]
    simp [runDelivery, h2, hne]
  · intro h2
    simp [runDelivery, h2]
  · constructor
    · intro hmem
      unfold runDelivery at hmem
      rcases List.mem_append.mp hmem with hmem | hmem
      · by_cases hdc : env.discordConfigured = true
        · rw [if_pos hdc] at hmem
          simp at hmem
        · rw [if_neg hdc] at hmem
          simp at hmem
      · by_cases hcc : (urlAfter1 env = "" ∧ env.cloudinaryConfigured = true)
        · exact ⟨hcc.2, hcc.1⟩
        · rw [if_neg hcc] at hmem
          simp at hmem
    · intro ⟨hcc, h1⟩
      unfold runDelivery
      refine List.mem_append.mpr (Or.inr ?_)
      rw [if_pos ⟨h1, hcc⟩]
      simp
  · exact job_success_trace req env

/-- Witness for C3: with both upload strategies configured and the
webhook relay succeeding, the returned URL is the webhook one. -/
theorem claim_C3_witness :
    (runDelivery witnessReq envDiscord).url = "https://cdn.example/attachment.apk" :=
  (claim_C3 witnessReq envDiscord).1 "https://cdn.example/attachment.apk"
    rfl rfl (by decide)

/-! ### Claim C4 -/

/-- C4: a keytool failure never aborts the job: the signer falls back to
the fixed default identity, and with every other stage succeeding the
job still emits `ready` and no `error` — the pipeline never fails solely
because identity generation failed. -/
theorem claim_C4 : ∀ (req : JobRequest) (env : ExtEnv),
    env.keytoolOk = false →
    signMode env = SignMode.fallback ∧
    (env.copyDecodeErr = none → env.buildErr = none → env.signExecErr = none →
      (∃ g, findGenerated env.tempFiles req.uuid = some g) →
      errorCount (runJob req env) = 0 ∧
      JobEvent.ready (runDelivery req env).url (finalApkName req) ∈
        runJob req env) := by
  intro req env hkt
  constructor
  · simp [signMode, useDynamicKey, hkt]
  · exact job_success_trace req env

/-- Witness for C4: keytool fails, everything else succeeds — default
identity is used and the job still reaches `ready`. -/
theorem claim_C4_witness :
    signMode envKeytoolFail = SignMode.fallback ∧
    (errorCount (runJob witnessReq envKeytoolFail) = 0 ∧
      JobEvent.ready (runDelivery witnessReq envKeytoolFail).url
        (finalApkName witnessReq) ∈ runJob witnessReq envKeytoolFail) := by
  obtain ⟨hm, hrest⟩ := claim_C4 witnessReq envKeytoolFail rfl
  exact ⟨hm, hrest rfl rfl rfl
    ⟨"unsigned-abc123-aligned-debugSigned.apk", by decide⟩⟩

/-! ### Claim C5 -/

/-- C5: the signing phase has no fallback: when the signer invocation
rejects, or when it reports success but no file in the scratch area
matches the expected `unsigned-<uuid>...signed` convention, the job
emits exactly one `error` notification and no `ready` notification. -/
theorem claim_C5 : ∀ (req : JobRequest) (env : ExtEnv),
    env.copyDecodeErr = none → env.buildErr = none →
    (env.signExecErr ≠ none ∨ findGenerated env.tempFiles req.uuid = none) →
    errorCount (runJob req env) = 1 ∧ readyCount (runJob req env) = 0 := by
  intro req env h1 h2 hdisj
  cases h3 : env.signExecErr with
  | some m =>
    cases hic : req.hasIcon <;>
      simp [runJob, h1, h2, h3, hic, errorCount, readyCount, isErrorEvent,
        isReadyEvent]
  | none =>
    have hfg : findGenerated env.tempFiles req.uuid = none := by
      rcases hdisj with hse | hfg
      · exact absurd h3 hse
      · exact hfg
    cases hic : req.hasIcon <;>
      simp [runJob, h1, h2, h3, hfg, hic, errorCount, readyCount, isErrorEvent,
        isReadyEvent]

/-- Witness for C5: the signer invocation rejects — one error
notification, no ready notification. -/
theorem claim_C5_witness :
    errorCount (runJob witnessReq envSignFail) = 1 ∧
    readyCount (runJob witnessReq envSignFail) = 0 :=
  claim_C5 witnessReq envSignFail rfl rfl (Or.inl (by decide))
